import Mathlib

/-!
Verification development for the scientist-network extraction pipeline
(`extract_scientists_final.py`).  Strings are embedded as `List Char`,
page coordinates as `ℚ`, Python `set`s of ids as duplicate-free `List ℕ`
(insertion order), and the insertion-ordered `dict` as an association
list with an upsert operation.
-/

set_option maxHeartbeats 1000000
set_option maxRecDepth 8000

/-- Python regex `\s` / `str.strip()` whitespace (ASCII range). -/
def isWS (c : Char) : Bool :=
  c = ' ' || c = '\t' || c = '\n' || c = '\r' || c = '\x0b' || c = '\x0c'

/-- Numeric value of a list of decimal digit characters (Python `int`). -/
def digitsVal (ds : List Char) : ℕ :=
  ds.foldl (fun a c => 10 * a + (c.toNat - 48)) 0

/-- `str.strip()`: drop whitespace from both ends. -/
def stripWS (l : List Char) : List Char :=
  ((l.dropWhile isWS).reverse.dropWhile isWS).reverse

/-- `re.sub(r'\s+', ' ', s)`: collapse every whitespace run to one space. -/
def collapseWS : List Char → List Char
  | [] => []
  | [c] => if isWS c then [' '] else [c]
  | c :: d :: rest =>
    if isWS c then
      if isWS d then collapseWS (d :: rest) else ' ' :: collapseWS (d :: rest)
    else c :: collapseWS (d :: rest)

/-- Helper for `str.split()`: accumulate the current word (reversed). -/
def splitWSAux : List Char → List Char → List (List Char)
  | [], acc => if acc = [] then [] else [acc.reverse]
  | c :: cs, acc =>
    if isWS c then
      if acc = [] then splitWSAux cs [] else acc.reverse :: splitWSAux cs []
    else splitWSAux cs (c :: acc)

/-- `str.split()`: split on whitespace runs, discarding empty pieces. -/
def splitWS (l : List Char) : List (List Char) := splitWSAux l []

/-- `' '.join(ws)`. -/
def joinSp : List (List Char) → List Char
  | [] => []
  | [w] => w
  | w :: v :: ws => w ++ ' ' :: joinSp (v :: ws)

/-- The literal `---PAGE_` that opens a page-boundary marker. -/
def markerLit : List Char := ['-', '-', '-', 'P', 'A', 'G', 'E', '_']

/-- Match the body pattern `---PAGE_(\d+)---` at the head of `l`; returns
the page number and the length of the matched body. -/
def matchMarkerAt (l : List Char) : Option (ℕ × ℕ) :=
  if markerLit.isPrefixOf l then
    let r := l.drop 8
    let ds := r.takeWhile Char.isDigit
    if ds = [] then none
    else if ['-', '-', '-'].isPrefixOf (r.drop ds.length) then
      some (digitsVal ds, 8 + ds.length + 3)
    else none
  else none

/-- `re.search(r'---PAGE_(\d+)---', s)`: page number of the leftmost
marker occurrence, if any. -/
def searchMarker : List Char → Option ℕ
  | [] => none
  | c :: cs =>
    match matchMarkerAt (c :: cs) with
    | some (n, _) => some n
    | none => searchMarker cs

/-- Page number used by the code for a raw-text prefix: the first marker
found by `re.search`, else the sentinel 0. -/
def pageOf (pre : List Char) : ℕ :=
  match searchMarker pre with
  | some n => n
  | none => 0

/-- All marker page numbers in order of occurrence (used to express the
spec notion of nearest preceding marker). -/
def collectMarkers : List Char → List ℕ
  | [] => []
  | c :: cs =>
    match matchMarkerAt (c :: cs) with
    | some (n, _) => n :: collectMarkers cs
    | none => collectMarkers cs

/-- Modelled from the spec: the map from a character offset of the
aggregate to the "nearest preceding page number" (§4.2) — the page of the
last marker occurring in the prefix, with 0 when no marker precedes. -/
def nearestPrecedingPage (pre : List Char) : ℕ :=
  ((collectMarkers pre).getLast?).getD 0

/-- Fueled body of `re.sub(r'\n---PAGE_\d+---\n', ' ', text)`. -/
def rmAux : ℕ → List Char → List Char
  | 0, l => l
  | _ + 1, [] => []
  | f + 1, c :: cs =>
    if c = '\n' then
      match matchMarkerAt cs with
      | some (_, len) =>
        match cs.drop len with
        | '\n' :: rest => ' ' :: rmAux f rest
        | _ => c :: rmAux f cs
      | none => c :: rmAux f cs
    else c :: rmAux f cs

/-- `re.sub(r'\n---PAGE_\d+---\n', ' ', text)`: replace each page marker
(with its surrounding newlines) by a single space. -/
def removeMarkers (l : List Char) : List Char := rmAux (l.length + 1) l

/-- The cleaned text scanned by the parser (lines 146-147 of the source):
markers replaced by spaces, then whitespace runs collapsed. -/
def cleanText (t : List Char) : List Char := collapseWS (removeMarkers t)

/-- Fueled scanner for `re.finditer(r'\[(\d+)\]([^[]*)', s)`.  Each match
is `(id, following text, start offset)`; scanning resumes after the whole
match, and a `[` not opening a complete numeric tag is skipped. -/
def scanAux : ℕ → List Char → ℕ → List (ℕ × List Char × ℕ)
  | 0, _, _ => []
  | _ + 1, [], _ => []
  | f + 1, c :: cs, i =>
    if c = '[' then
      let ds := cs.takeWhile Char.isDigit
      if ds = [] then scanAux f cs (i + 1)
      else
        match cs.drop ds.length with
        | ']' :: rest =>
          let saf := rest.takeWhile (fun x => x ≠ '[')
          (digitsVal ds, saf, i) ::
            scanAux f (rest.drop saf.length) (i + 2 + ds.length + saf.length)
        | _ => scanAux f cs (i + 1)
    else scanAux f cs (i + 1)

/-- All bracket-tag matches of the cleaned text, in document order. -/
def scanMatches (l : List Char) : List (ℕ × List Char × ℕ) :=
  scanAux (l.length + 1) l 0

/-- The match list the parser iterates over for input `t`. -/
def matchesOf (t : List Char) : List (ℕ × List Char × ℕ) :=
  scanMatches (cleanText t)

/-- Fueled scanner for `re.findall(r'\[(\d+)\]', s)` (the resolver's
pattern); scanning resumes right after the closing bracket. -/
def refAux : ℕ → List Char → List ℕ
  | 0, _ => []
  | _ + 1, [] => []
  | f + 1, c :: cs =>
    if c = '[' then
      let ds := cs.takeWhile Char.isDigit
      if ds = [] then refAux f cs
      else
        match cs.drop ds.length with
        | ']' :: rest => digitsVal ds :: refAux f rest
        | _ => refAux f cs
    else refAux f cs

/-- All numeric ids appearing in bracket tags of a biography text. -/
def findRefIds (l : List Char) : List ℕ := refAux (l.length + 1) l

/-- A scientist record (`Scientist.__init__`): id, name, biography,
page number and the set of referenced ids. -/
structure Scientist where
  id : ℕ
  name : List Char
  biography : List Char
  page_number : ℕ
  connections : List ℕ
deriving DecidableEq

/-- Python `set.add`: append unless already present (duplicate-free). -/
def connAdd (l : List ℕ) (x : ℕ) : List ℕ :=
  if x ∈ l then l else l ++ [x]

/-- Insert-or-replace into the insertion-ordered entity map
(`self.scientists[id] = scientist`). -/
def upsert : List (ℕ × Scientist) → ℕ → Scientist → List (ℕ × Scientist)
  | [], k, v => [(k, v)]
  | (k', v') :: rest, k, v =>
    if k' = k then (k, v) :: rest else (k', v') :: upsert rest k v

/-- Dictionary lookup in the entity map. -/
def listLookup : List (ℕ × Scientist) → ℕ → Option Scientist
  | [], _ => none
  | (k, v) :: rest, k' => if k' = k then some v else listLookup rest k'

/-- Parser state of `parse_scientist_entries`: the entity map, the
current scientist (if any) and its biography buffer. -/
structure PState where
  scientists : List (ℕ × Scientist)
  current : Option Scientist
  buffer : List Char
deriving DecidableEq

/-- Biography normalization at finalization (lines 170-171 / 224-225):
strip, collapse whitespace runs, strip. -/
def normalizeBio (l : List Char) : List Char := stripWS (collapseWS (stripWS l))

/-- The new-entity classification of a bracket match (lines 162-165 and
184): the first whitespace-delimited token of the stripped following
text has at least two upper-case letters and length above two. -/
def isNewEntity (after0 : List Char) : Bool :=
  match splitWS (stripWS after0) with
  | [] => false
  | w :: _ => decide (2 ≤ (w.filter Char.isUpper).length ∧ 2 < w.length)

/-- One step of the parsing state machine of `parse_scientist_entries`
(lines 156-220) on a match `(id, following text, start offset)`; `t` is
the raw aggregate text, used for the page-number search. -/
def stepMatch (t : List Char) (st : PState) (m : ℕ × List Char × ℕ) : PState :=
  let sid := m.1
  let after := stripWS m.2.1
  match splitWS after with
  | [] =>
    match st.current with
    | some cur =>
      { st with
        current := some { cur with connections := connAdd cur.connections sid },
        buffer := st.buffer ++ ' ' :: '[' :: (Nat.toDigits 10 sid ++ [']']) }
    | none => st
  | w :: ws =>
    let st1 : PState :=
      match st.current with
      | some cur =>
        let cur' := { cur with
          biography := normalizeBio st.buffer,
          page_number := pageOf (t.take m.2.2) }
        { scientists := upsert st.scientists cur'.id cur',
          current := some cur',
          buffer := st.buffer }
      | none => st
    if 2 ≤ (w.filter Char.isUpper).length ∧ 2 < w.length then
      { st1 with
        current := some ⟨sid, w, [], 0, []⟩,
        buffer := joinSp ws }
    else
      match st1.current with
      | some cur =>
        { st1 with
          current := some { cur with connections := connAdd cur.connections sid },
          buffer := st1.buffer ++ ' ' :: '[' :: (Nat.toDigits 10 sid ++ ']' :: ' ' :: after) }
      | none => st1

/-- Fold the state machine over a match list. -/
def processMatches (t : List Char) (ms : List (ℕ × List Char × ℕ)) : PState :=
  ms.foldl (stepMatch t) ⟨[], none, []⟩

/-- End-of-input finalization (lines 222-234), including the Python
slice `text[:len(text) - len(current_biography)]` with its negative-index
semantics. -/
def finishParse (t : List Char) (st : PState) : List (ℕ × Scientist) :=
  match st.current with
  | none => st.scientists
  | some cur =>
    let n : ℤ := (t.length : ℤ) - (st.buffer.length : ℤ)
    let pg := pageOf (t.take (if 0 ≤ n then n.toNat else t.length - (-n).toNat))
    upsert st.scientists cur.id
      { cur with biography := normalizeBio st.buffer, page_number := pg }

/-- `parse_scientist_entries`: the full single scan over the input. -/
def parse (t : List Char) : List (ℕ × Scientist) :=
  finishParse t (processMatches t (matchesOf t))

/-- `extract_connections` body for one entity (lines 242-256): add every
id found in the biography, excluding the entity's own map key. -/
def resolveSci (k : ℕ) (s : Scientist) : Scientist :=
  { s with
    connections :=
      (findRefIds s.biography).foldl
        (fun l r => if r = k then l else connAdd l r) s.connections }

/-- `extract_connections` over the whole entity map. -/
def extract_connections (m : List (ℕ × Scientist)) : List (ℕ × Scientist) :=
  m.map (fun p => (p.1, resolveSci p.1 p.2))

/-- Parsing followed by reference resolution. -/
def runPipeline (t : List Char) : List (ℕ × Scientist) :=
  extract_connections (parse t)

/-- `create_relationships` (lines 279-291): one `(source, target)` edge
per entity/connection pair, never dropping unknown targets. -/
def create_relationships (m : List (ℕ × Scientist)) : List (ℕ × ℕ) :=
  m.flatMap (fun p => p.2.connections.map (fun tgt => (p.1, tgt)))

/-- The node list of `generate_network_json` (entity records, in map
order). -/
def nodesOf (m : List (ℕ × Scientist)) : List Scientist := m.map Prod.snd

/-- A positioned word token (`page.extract_words()` element). -/
structure Tok where
  text : List Char
  x0 : ℚ
  top : ℚ
deriving DecidableEq

/-- A page: its word tokens and its width. -/
structure Page where
  words : List Tok
  width : ℚ
deriving DecidableEq

/-- Stable insertion of `a` into `l` (after every element `b` with
`le b a`), mirroring a stable sort step. -/
def insertBy (le : α → α → Bool) (a : α) : List α → List α
  | [] => [a]
  | b :: bs => if le b a then b :: insertBy le a bs else a :: b :: bs

/-- Stable sort by `le` (Python `list.sort(key=...)` is stable, and the
output of a stable sort is unique, so any stable sort is faithful). -/
def sortBy (le : α → α → Bool) (l : List α) : List α :=
  l.foldr (insertBy le) []

/-- Token comparison used by the column extractor: by vertical offset. -/
def tokLE (a b : Tok) : Bool := decide (a.top ≤ b.top)

/-- Rational comparison used to sort the horizontal positions. -/
def ratLE (a b : ℚ) : Bool := decide (a ≤ b)

/-- Header removal (lines 53-65): drop tokens within 5 units of the
minimum vertical offset, falling back to all words if that empties. -/
def contentWords (p : Page) : List Tok :=
  match sortBy tokLE p.words with
  | [] => []
  | w :: _ =>
    let c := p.words.filter (fun x => decide (w.top + 5 < x.top))
    if c = [] then p.words else c

/-- The sorted horizontal left edges of the retained tokens. -/
def xPositions (p : Page) : List ℚ :=
  sortBy ratLE ((contentWords p).map Tok.x0)

/-- Consecutive gaps `(gap, left, right)` of the sorted positions. -/
def mkGaps : List ℚ → List (ℚ × ℚ × ℚ)
  | [] => []
  | [_] => []
  | a :: b :: rest => (b - a, a, b) :: mkGaps (b :: rest)

/-- Strict lexicographic order on gap triples; `gaps.sort(reverse=True)`
followed by `gaps[0]` selects the lexicographically largest triple. -/
def gapLT (a b : ℚ × ℚ × ℚ) : Prop :=
  a.1 < b.1 ∨ (a.1 = b.1 ∧ (a.2.1 < b.2.1 ∨ (a.2.1 = b.2.1 ∧ a.2.2 < b.2.2)))

instance (a b : ℚ × ℚ × ℚ) : Decidable (gapLT a b) := by
  unfold gapLT; infer_instance

/-- The largest gap triple (first maximal one, as in the stable
descending sort of the source). -/
def maxGap (g : ℚ × ℚ × ℚ) (gs : List (ℚ × ℚ × ℚ)) : ℚ × ℚ × ℚ :=
  gs.foldl (fun a b => if gapLT a b then b else a) g

/-- The column boundary (lines 67-82): midpoint of the largest gap, or
the page's horizontal midpoint when there is no consecutive pair. -/
def boundaryOf (p : Page) : ℚ :=
  match mkGaps (xPositions p) with
  | [] => p.width / 2
  | g :: gs => ((maxGap g gs).2.1 + (maxGap g gs).2.2) / 2

/-- Tokens assigned to the left partition (`x0 < boundary`). -/
def leftToks (p : Page) : List Tok :=
  (contentWords p).filter (fun w => decide (w.x0 < boundaryOf p))

/-- Tokens assigned to the right partition (`x0 ≥ boundary`). -/
def rightToks (p : Page) : List Tok :=
  (contentWords p).filter (fun w => !decide (w.x0 < boundaryOf p))

/-- The left partition sorted by vertical offset (line 95). -/
def leftSorted (p : Page) : List Tok := sortBy tokLE (leftToks p)

/-- The right partition sorted by vertical offset (line 96). -/
def rightSorted (p : Page) : List Tok := sortBy tokLE (rightToks p)

/-- `extract_text_in_columns`: spaces join each column, and the whole
left column precedes the right column across a paragraph separator. -/
def extract_text_in_columns (p : Page) : List Char :=
  if p.words = [] then []
  else
    joinSp ((leftSorted p).map Tok.text) ++ '\n' :: '\n' ::
      joinSp ((rightSorted p).map Tok.text)

/-- The page loop of `extract_text_from_pdf` (lines 120-131): a `none`
page models a raised per-page exception, which aborts the whole
extraction (the surrounding `except` returns the empty string). -/
def extractPagesAux (pages : List (Option Page)) : ℕ → ℕ → Option (List Char)
  | _, 0 => some []
  | idx, c + 1 =>
    if idx < pages.length then
      match pages[idx]? with
      | none => some []
      | some none => none
      | some (some pg) =>
        let txt := extract_text_in_columns pg
        let piece :=
          if txt = [] then []
          else '\n' :: (markerLit ++ Nat.toDigits 10 (idx + 1) ++ '-' :: '-' :: '-' :: '\n' :: txt)
        match extractPagesAux pages (idx + 1) c with
        | none => none
        | some restTxt => some (piece ++ restTxt)
    else some []

/-- `extract_text_from_pdf`: `none` for the document models a failed
open; any exception inside the loop yields the empty aggregate. -/
def extract_text_from_pdf (pdf : Option (List (Option Page)))
    (start_page num_pages : ℕ) : List Char :=
  match pdf with
  | none => []
  | some pages =>
    match extractPagesAux pages (start_page - 1) num_pages with
    | none => []
    | some s => s

/-! Concrete inputs used by counterexamples and witnesses. -/

/-- Example 1 of the spec (§8): a trailing bare self-reference tag. -/
def inputSelfRef : List Char :=
  "[1] THALES was a philosopher. [2] later influenced [1] again.".data

/-- A biography whose only bracket tag is a self-reference. -/
def inputSelfRef2 : List Char := "[7] PLATO wrote [7] dialogues".data

/-- Two pages with one entity each: entity 2 starts after the page-2
marker. -/
def inputTwoPages : List Char :=
  "\n---PAGE_1---\n[1] THALES one\n---PAGE_2---\n[2] SOLON two".data

/-- Example 2 of the spec (§8): two consecutive entities. -/
def inputTwoEntities : List Char := "[3] THALES bio text [4] SOLON bio text".data

/-- An entity citing an id that never becomes an entity. -/
def inputUnknownRef : List Char := "[1] ABC x [99] y".data

/-- An input with no page-boundary marker at all. -/
def inputNoMarkers : List Char := "[1] ABC hi [2] ok".data

/-- The current entity right after processing the first match of
`inputTwoEntities`. -/
def thalesCurrent : Scientist := ⟨3, "THALES".data, [], 0, []⟩

/-- The single finalized entity of `inputNoMarkers`. -/
def abcScientist : Scientist := ⟨1, "ABC".data, "hi [2] ok".data, 0, [2]⟩

/-- The single resolved entity of `inputUnknownRef`. -/
def unknownRefScientist : Scientist := ⟨1, "ABC".data, "x [99] y".data, 0, [99]⟩

/-- A page whose two retained tokens share one horizontal position. -/
def dupPage : Page :=
  ⟨[⟨"h".data, 0, 0⟩, ⟨"a".data, 50, 20⟩, ⟨"b".data, 50, 30⟩], 612⟩

/-- The two-cluster page of Example 4 (§8), with a header token. -/
def clPage : Page :=
  ⟨[⟨"h".data, 0, 0⟩, ⟨"a".data, 10, 10⟩, ⟨"b".data, 12, 20⟩, ⟨"c".data, 14, 30⟩,
    ⟨"u".data, 200, 15⟩, ⟨"v".data, 202, 25⟩, ⟨"w".data, 205, 35⟩], 612⟩

/-- A page with a single token (one retained token, so no gap exists). -/
def singlePage : Page := ⟨[⟨"x".data, 7, 0⟩], 100⟩

/-- A two-column page used to witness the ordering property. -/
def wpPage : Page :=
  ⟨[⟨"h".data, 0, 0⟩, ⟨"aa".data, 10, 10⟩, ⟨"bb".data, 12, 20⟩,
    ⟨"cc".data, 200, 10⟩], 612⟩

/-- A page contributing the text `world`. -/
def worldPage : Page := ⟨[⟨"hello".data, 10, 10⟩, ⟨"world".data, 10, 20⟩], 100⟩

/-- A two-page document whose second page raises on token fetch. -/
def pdfPageFails : List (Option Page) := [some worldPage, none]

/-- A two-page document whose second page yields no tokens. -/
def pdfPageEmpty : List (Option Page) := [some worldPage, some ⟨[], 100⟩]

/-! Basic lemmas about the duplicate-free connection lists. -/

lemma mem_connAdd {l : List ℕ} {x y : ℕ} : y ∈ connAdd l x ↔ y ∈ l ∨ y = x := by
  unfold connAdd
  by_cases h : x ∈ l
  · simp only [if_pos h]
    exact ⟨Or.inl, fun h' => h'.elim id (fun e => e ▸ h)⟩
  · simp [if_neg h, List.mem_append]

lemma connAdd_of_mem {l : List ℕ} {x : ℕ} (h : x ∈ l) : connAdd l x = l := by
  simp [connAdd, if_pos h]

lemma connAdd_nodup {l : List ℕ} {x : ℕ} (h : l.Nodup) : (connAdd l x).Nodup := by
  unfold connAdd
  by_cases hx : x ∈ l
  · simpa [if_pos hx]
  · rw [if_neg hx, List.nodup_append]
    exact ⟨h, List.nodup_singleton x,
      fun a ha hb => by rw [List.mem_singleton] at hb; exact hx (hb ▸ ha)⟩

lemma resolveFold_mem (ids : List ℕ) (k : ℕ) :
    ∀ (l : List ℕ) (x : ℕ),
      x ∈ ids.foldl (fun acc r => if r = k then acc else connAdd acc r) l ↔
        x ∈ l ∨ (x ∈ ids ∧ x ≠ k) := by
  induction ids with
  | nil => simp
  | cons r ids ih =>
    intro l x
    simp only [List.foldl_cons]
    by_cases hr : r = k
    · subst hr
      rw [if_pos rfl, ih]
      constructor
      · rintro (h | h)
        · exact Or.inl h
        · exact Or.inr ⟨List.mem_cons_of_mem _ h.1, h.2⟩
      · rintro (h | ⟨hm, hne⟩)
        · exact Or.inl h
        · rcases List.mem_cons.mp hm with rfl | hm'
          · exact absurd rfl hne
          · exact Or.inr ⟨hm', hne⟩
    · rw [if_neg hr, ih]
      constructor
      · rintro (h | h)
        · rcases mem_connAdd.mp h with h' | rfl
          · exact Or.inl h'
          · exact Or.inr ⟨List.mem_cons_self _ _, hr⟩
        · exact Or.inr ⟨List.mem_cons_of_mem _ h.1, h.2⟩
      · rintro (h | ⟨hm, hne⟩)
        · exact Or.inl (mem_connAdd.mpr (Or.inl h))
        · rcases List.mem_cons.mp hm with rfl | hm'
          · exact Or.inl (mem_connAdd.mpr (Or.inr rfl))
          · exact Or.inr ⟨hm', hne⟩

lemma resolveFold_fix (ids : List ℕ) (k : ℕ) :
    ∀ l : List ℕ, (∀ r ∈ ids, r ≠ k → r ∈ l) →
      ids.foldl (fun acc r => if r = k then acc else connAdd acc r) l = l := by
  induction ids with
  | nil => intro l _; rfl
  | cons r ids ih =>
    intro l h
    simp only [List.foldl_cons]
    by_cases hr : r = k
    · rw [if_pos hr]
      exact ih l (fun r' hm => h r' (List.mem_cons_of_mem _ hm))
    · rw [if_neg hr, connAdd_of_mem (h r (List.mem_cons_self _ _) hr)]
      exact ih l (fun r' hm => h r' (List.mem_cons_of_mem _ hm))

lemma resolveFold_nodup (ids : List ℕ) (k : ℕ) :
    ∀ l : List ℕ, l.Nodup →
      (ids.foldl (fun acc r => if r = k then acc else connAdd acc r) l).Nodup := by
  induction ids with
  | nil => intro l h; exact h
  | cons r ids ih =>
    intro l h
    simp only [List.foldl_cons]
    by_cases hr : r = k
    · rw [if_pos hr]; exact ih l h
    · rw [if_neg hr]; exact ih _ (connAdd_nodup h)

/-- C1 — code_bug evidence.  On the spec's own Example 1 the pipeline
leaves the entity's own id inside its resolved connection set: the lone
entity 1 ends with connections `[2, 1]`, because the inline capture at
line 205 adds the self-reference and `extract_connections` only ever
adds ids, never removing the inline ones. -/
theorem c1_self_reference_eval :
    (runPipeline inputSelfRef).map (fun p => (p.1, p.2.connections)) = [(1, [2, 1])] := by
  decide

/-- C3 — code_bug evidence.  On a two-page aggregate, the entity that
starts after the page-2 marker is attributed page 1: `re.search` returns
the first marker of the prefix, not the nearest preceding one
(`nearestPrecedingPage`, which yields 2 at that entity's start offset). -/
theorem c3_page_attribution_eval :
    (parse inputTwoPages).map (fun p => (p.1, p.2.page_number)) = [(1, 1), (2, 1)] ∧
    nearestPrecedingPage (inputTwoPages.take 42) = 2 := by
  decide

/-- C2 — counterexample.  For `[7] PLATO wrote [7] dialogues` the
resolved connection set is `{7}`, while the claim (biography-derived ids
minus own id, replacing the inline set) predicts the empty set: the
biography's only tag is the self-reference, which survives from the
inline capture. -/
theorem c2_counterexample :
    (runPipeline inputSelfRef2).map (fun p => (p.1, p.2.connections)) = [(7, [7])] ∧
    (findRefIds ("wrote [7] dialogues".data)).filter (fun r => decide (r ≠ 7)) = [] := by
  decide

/-- C2 (amended): `extract_connections` does not replace the
inline-captured set; it unions it with the biography-derived ids minus
the entity's map key.  Membership in the resolved set is exactly that
union, the resolver is idempotent on its own output, and
`extract_connections` applies this entity-wise over the map. -/
theorem c2_resolver_amended :
    (∀ (k : ℕ) (s : Scientist) (x : ℕ),
      x ∈ (resolveSci k s).connections ↔
        x ∈ s.connections ∨ (x ∈ findRefIds s.biography ∧ x ≠ k)) ∧
    (∀ (k : ℕ) (s : Scientist), resolveSci k (resolveSci k s) = resolveSci k s) ∧
    (∀ m : List (ℕ × Scientist),
      extract_connections m = m.map (fun p => (p.1, resolveSci p.1 p.2))) := by
  refine ⟨fun k s x => ?_, fun k s => ?_, fun m => rfl⟩
  · exact resolveFold_mem (findRefIds s.biography) k s.connections x
  · show ({ resolveSci k s with
        connections := (findRefIds (resolveSci k s).biography).foldl
          (fun l r => if r = k then l else connAdd l r)
          (resolveSci k s).connections } : Scientist) = resolveSci k s
    have hfix :
        (findRefIds (resolveSci k s).biography).foldl
          (fun l r => if r = k then l else connAdd l r)
          (resolveSci k s).connections = (resolveSci k s).connections := by
      apply resolveFold_fix
      intro r hm hne
      have hb : (resolveSci k s).biography = s.biography := rfl
      rw [hb] at hm
      exact (resolveFold_mem (findRefIds s.biography) k s.connections r).mpr
        (Or.inr ⟨hm, hne⟩)
    rw [hfix]

/-! Equation lemmas characterising one parser step by the shape of the
match's following text. -/

lemma stepMatch_empty (t : List Char) (st : PState) (m : ℕ × List Char × ℕ)
    (hs : splitWS (stripWS m.2.1) = []) :
    stepMatch t st m =
      match st.current with
      | some cur =>
        { st with
          current := some { cur with connections := connAdd cur.connections m.1 },
          buffer := st.buffer ++ ' ' :: '[' :: (Nat.toDigits 10 m.1 ++ [']']) }
      | none => st := by
  simp only [stepMatch]
  rw [hs]

lemma stepMatch_words_new (t : List Char) (st : PState) (m : ℕ × List Char × ℕ)
    (w : List Char) (ws : List (List Char))
    (hs : splitWS (stripWS m.2.1) = w :: ws)
    (hc : 2 ≤ (w.filter Char.isUpper).length ∧ 2 < w.length) :
    stepMatch t st m =
      { scientists :=
          match st.current with
          | some cur =>
            upsert st.scientists cur.id
              { cur with
                biography := normalizeBio st.buffer,
                page_number := pageOf (t.take m.2.2) }
          | none => st.scientists,
        current := some ⟨m.1, w, [], 0, []⟩,
        buffer := joinSp ws } := by
  simp only [stepMatch]
  rw [hs]
  cases hcur : st.current with
  | none => simp only [hcur, if_pos hc]
  | some cur => simp only [hcur, if_pos hc]

lemma stepMatch_words_ref (t : List Char) (st : PState) (m : ℕ × List Char × ℕ)
    (w : List Char) (ws : List (List Char))
    (hs : splitWS (stripWS m.2.1) = w :: ws)
    (hc : ¬(2 ≤ (w.filter Char.isUpper).length ∧ 2 < w.length)) :
    stepMatch t st m =
      match st.current with
      | some cur =>
        { scientists := upsert st.scientists cur.id
            { cur with
              biography := normalizeBio st.buffer,
              page_number := pageOf (t.take m.2.2) },
          current := some
            { cur with
              biography := normalizeBio st.buffer,
              page_number := pageOf (t.take m.2.2),
              connections := connAdd cur.connections m.1 },
          buffer := st.buffer ++ ' ' :: '[' ::
            (Nat.toDigits 10 m.1 ++ ']' :: ' ' :: stripWS m.2.1) }
      | none => st := by
  simp only [stepMatch]
  rw [hs]
  cases hcur : st.current with
  | none => simp only [hcur, if_neg hc]
  | some cur => simp only [hcur, if_neg hc]

/-- The classification boolean, characterised by the first token of the
stripped following text. -/
lemma isNewEntity_iff (a : List Char) : isNewEntity a = true ↔
    ∃ w l, splitWS (stripWS a) = w :: l ∧
      2 ≤ (w.filter Char.isUpper).length ∧ 2 < w.length := by
  unfold isNewEntity
  cases hs : splitWS (stripWS a) with
  | nil =>
    simp only [hs]
    constructor
    · intro h; exact absurd h (by simp)
    · rintro ⟨w, l, hw, -⟩; exact absurd hw (by simp)
  | cons w l =>
    simp only [hs, decide_eq_true_eq]
    constructor
    · intro h; exact ⟨w, l, rfl, h.1, h.2⟩
    · rintro ⟨w', l', hw, h1, h2⟩
      injection hw with e1 e2
      subst e1
      exact ⟨h1, h2⟩

/-- C5: every bracket match is classified by `isNewEntity`, a total
boolean function: it is `true` exactly when the first
whitespace-delimited token of the stripped following text has at least
two upper-case letters and length above two, it is `false` for empty
following text, there is no third outcome, and the classification drives
the parser step — a new-entity match installs a fresh current entity
named by that first token, while a reference match keeps the current
entity's identity. -/
theorem c5_classification :
    (∀ a : List Char, isNewEntity a = true ↔
        ∃ w l, splitWS (stripWS a) = w :: l ∧
          2 ≤ (w.filter Char.isUpper).length ∧ 2 < w.length) ∧
    (∀ a : List Char, splitWS (stripWS a) = [] → isNewEntity a = false) ∧
    (∀ a : List Char, isNewEntity a = true ∨ isNewEntity a = false) ∧
    (∀ (t : List Char) (st : PState) (m : ℕ × List Char × ℕ),
      isNewEntity m.2.1 = true →
        ∃ w l, splitWS (stripWS m.2.1) = w :: l ∧
          (stepMatch t st m).current = some ⟨m.1, w, [], 0, []⟩) ∧
    (∀ (t : List Char) (st : PState) (m : ℕ × List Char × ℕ) (c : Scientist),
      st.current = some c → isNewEntity m.2.1 = false →
        ∃ c', (stepMatch t st m).current = some c' ∧
          c'.id = c.id ∧ c'.name = c.name) := by
  have hiff := isNewEntity_iff
  refine ⟨hiff, fun a h => ?_, fun a => Bool.eq_false_or_eq_true _, ?_, ?_⟩
  · unfold isNewEntity; rw [h]
  · intro t st m h
    obtain ⟨w, l, hs, hc⟩ := (hiff m.2.1).mp h
    refine ⟨w, l, hs, ?_⟩
    rw [stepMatch_words_new t st m w l hs hc]
  · intro t st m c hcur h
    cases hs : splitWS (stripWS m.2.1) with
    | nil =>
      refine ⟨{ c with connections := connAdd c.connections m.1 }, ?_, rfl, rfl⟩
      rw [stepMatch_empty t st m hs, hcur]
    | cons w ws =>
      have hc : ¬(2 ≤ (w.filter Char.isUpper).length ∧ 2 < w.length) := by
        intro hcond
        rw [(hiff m.2.1).mpr ⟨w, ws, hs, hcond.1, hcond.2⟩] at h
        exact Bool.noConfusion h
      refine ⟨{ c with biography := normalizeBio st.buffer, page_number := pageOf (t.take m.2.2), connections := connAdd c.connections m.1 }, ?_, rfl, rfl⟩
      rw [stepMatch_words_ref t st m w ws hs hc, hcur]

/-- Witness for C5 at a concrete following text. -/
theorem c5_classification_witness :
    isNewEntity ("THALES was a philosopher.".data) = true :=
  (c5_classification.1 _).mpr ⟨"THALES".data, ["was".data, "a".data, "philosopher.".data],
    by decide, by decide, by decide⟩

/-! Lemmas about the insertion-ordered entity map. -/

lemma listLookup_upsert_self (m : List (ℕ × Scientist)) (k : ℕ) (v : Scientist) :
    listLookup (upsert m k v) k = some v := by
  induction m with
  | nil => simp [upsert, listLookup]
  | cons p rest ih =>
    obtain ⟨k', v'⟩ := p
    unfold upsert
    by_cases h : k' = k
    · simp [if_pos h, listLookup]
    · simp only [if_neg h]
      unfold listLookup
      rw [if_neg (fun e => h e.symm)]
      exact ih

lemma listLookup_upsert_ne (m : List (ℕ × Scientist)) (k : ℕ) (v : Scientist)
    (k' : ℕ) (h : k' ≠ k) : listLookup (upsert m k v) k' = listLookup m k' := by
  induction m with
  | nil => simp [upsert, listLookup, if_neg h]
  | cons p rest ih =>
    obtain ⟨k0, v0⟩ := p
    unfold upsert
    by_cases h0 : k0 = k
    · subst h0
      simp [listLookup, if_neg h]
    · simp only [if_neg h0]
      unfold listLookup
      by_cases h1 : k' = k0
      · simp [if_pos h1]
      · simp only [if_neg h1]
        exact ih

lemma mem_upsert {m : List (ℕ × Scientist)} {k : ℕ} {v : Scientist}
    {p : ℕ × Scientist} (h : p ∈ upsert m k v) : p = (k, v) ∨ p ∈ m := by
  induction m with
  | nil => simpa [upsert] using h
  | cons q rest ih =>
    obtain ⟨k0, v0⟩ := q
    unfold upsert at h
    by_cases h0 : k0 = k
    · rw [if_pos h0] at h
      rcases List.mem_cons.mp h with rfl | hm
      · exact Or.inl rfl
      · exact Or.inr (List.mem_cons_of_mem _ hm)
    · rw [if_neg h0] at h
      rcases List.mem_cons.mp h with rfl | hm
      · exact Or.inr (List.mem_cons_self _ _)
      · rcases ih hm with h' | h'
        · exact Or.inl h'
        · exact Or.inr (List.mem_cons_of_mem _ h')

lemma map_fst_upsert (m : List (ℕ × Scientist)) (k : ℕ) (v : Scientist) :
    (upsert m k v).map Prod.fst =
      if k ∈ m.map Prod.fst then m.map Prod.fst else m.map Prod.fst ++ [k] := by
  induction m with
  | nil => simp [upsert]
  | cons q rest ih =>
    obtain ⟨k0, v0⟩ := q
    by_cases h0 : k0 = k
    · subst h0
      simp [upsert, List.mem_cons]
    · simp only [upsert, if_neg h0, List.map_cons, ih]
      by_cases hmem : k ∈ rest.map Prod.fst
      · rw [if_pos hmem, if_pos (List.mem_cons.mpr (Or.inr hmem))]
      · rw [if_neg hmem, if_neg ?hne, List.cons_append]
        case hne =>
          intro hk
          rcases List.mem_cons.mp hk with e | e
          · exact h0 e.symm
          · exact hmem e

lemma nodup_fst_upsert {m : List (ℕ × Scientist)} {k : ℕ} {v : Scientist}
    (h : (m.map Prod.fst).Nodup) : ((upsert m k v).map Prod.fst).Nodup := by
  rw [map_fst_upsert]
  by_cases hmem : k ∈ m.map Prod.fst
  · rwa [if_pos hmem]
  · rw [if_neg hmem, List.nodup_append]
    exact ⟨h, List.nodup_singleton k,
      fun a ha hb => by rw [List.mem_singleton] at hb; exact hmem (hb ▸ ha)⟩

/-! The page-number invariant when no marker precedes any offset (C10). -/

lemma step_pages_zero (t : List Char) (st : PState) (m : ℕ × List Char × ℕ)
    (h : ∀ j, searchMarker (t.take j) = none)
    (hst : ∀ p ∈ st.scientists, (p : ℕ × Scientist).2.page_number = 0) :
    ∀ p ∈ (stepMatch t st m).scientists, (p : ℕ × Scientist).2.page_number = 0 := by
  have hpg : ∀ j, pageOf (t.take j) = 0 := by
    intro j; unfold pageOf; rw [h j]
  cases hs : splitWS (stripWS m.2.1) with
  | nil =>
    rw [stepMatch_empty t st m hs]
    cases hcur : st.current with
    | none => exact hst
    | some cur => exact hst
  | cons w ws =>
    by_cases hc : 2 ≤ (w.filter Char.isUpper).length ∧ 2 < w.length
    · rw [stepMatch_words_new t st m w ws hs hc]
      cases hcur : st.current with
      | none => exact hst
      | some cur =>
        intro p hp
        rcases mem_upsert hp with rfl | hp'
        · exact hpg m.2.2
        · exact hst p hp'
    · rw [stepMatch_words_ref t st m w ws hs hc]
      cases hcur : st.current with
      | none => exact hst
      | some cur =>
        intro p hp
        rcases mem_upsert hp with rfl | hp'
        · exact hpg m.2.2
        · exact hst p hp'

lemma fold_pages_zero (t : List Char) (h : ∀ j, searchMarker (t.take j) = none) :
    ∀ (ms : List (ℕ × List Char × ℕ)) (st : PState),
      (∀ p ∈ st.scientists, (p : ℕ × Scientist).2.page_number = 0) →
      ∀ p ∈ (ms.foldl (stepMatch t) st).scientists,
        (p : ℕ × Scientist).2.page_number = 0 := by
  intro ms
  induction ms with
  | nil => intro st hst; exact hst
  | cons m ms ih =>
    intro st hst
    rw [List.foldl_cons]
    exact ih _ (step_pages_zero t st m h hst)

/-- C10: when no page-boundary marker occurs in any prefix of the input
(in particular for marker-free input), every finalized entity receives
the sentinel page number 0 — never an error or a missing field. -/
theorem c10_default_page (t : List Char)
    (h : ∀ j, searchMarker (t.take j) = none) :
    ∀ p ∈ parse t, (p : ℕ × Scientist).2.page_number = 0 := by
  have hpg : ∀ j, pageOf (t.take j) = 0 := by
    intro j; unfold pageOf; rw [h j]
  have hfold := fold_pages_zero t h (matchesOf t) ⟨[], none, []⟩ (by intro p hp; cases hp)
  unfold parse
  unfold finishParse
  cases hcur : (processMatches t (matchesOf t)).current with
  | none => exact hfold
  | some cur =>
    intro p hp
    rcases mem_upsert hp with rfl | hp'
    · exact hpg _
    · exact hfold p hp'

/-- Witness for C10 on a marker-free input. -/
theorem c10_default_page_witness : abcScientist.page_number = 0 := by
  have hno : ∀ j, searchMarker (inputNoMarkers.take j) = none := by
    intro j
    rcases Nat.lt_or_ge j 18 with hj | hj
    · interval_cases j <;> decide
    · rw [List.take_of_length_le (le_trans (by decide) hj)]
      decide
  exact c10_default_page inputNoMarkers hno (1, abcScientist) (by decide)

/-! The aggregation loop aborts on any page failure (C4). -/

lemma extractAux_none :
    ∀ (c idx : ℕ) (pages : List (Option Page)),
      (∃ i, i < c ∧ idx + i < pages.length ∧ pages[idx + i]? = some none) →
      extractPagesAux pages idx c = none := by
  intro c
  induction c with
  | zero =>
    rintro idx pages ⟨i, hi, -, -⟩
    exact absurd hi (Nat.not_lt_zero i)
  | succ c ih =>
    rintro idx pages ⟨i, hi, hlen, hget⟩
    have hidx : idx < pages.length := Nat.lt_of_le_of_lt (Nat.le_add_right idx i) hlen
    unfold extractPagesAux
    rw [if_pos hidx]
    cases i with
    | zero =>
      rw [Nat.add_zero] at hget
      rw [hget]
    | succ i' =>
      have hsome : pages[idx]? = some pages[idx] :=
        List.getElem?_eq_getElem hidx
      cases hpg : pages[idx] with
      | none => rw [hsome, hpg]
      | some pg =>
        rw [hsome, hpg]
        have hrec := ih (idx + 1) pages
          ⟨i', Nat.lt_of_succ_lt_succ hi, by omega,
            by rw [show idx + 1 + i' = idx + (i' + 1) from by omega]; exact hget⟩
        rw [hrec]

/-- C4 (amended): a token-fetch failure on any page in the visited range
does not contribute empty text and continue — it aborts the whole
aggregation, which returns the empty aggregate (the same outcome as a
missing document). -/
theorem c4_abort_on_page_failure (pages : List (Option Page)) (sp np : ℕ)
    (h : ∃ i, i < np ∧ (sp - 1) + i < pages.length ∧
      pages[(sp - 1) + i]? = some none) :
    extract_text_from_pdf (some pages) sp np = [] := by
  show (match extractPagesAux pages (sp - 1) np with
    | none => ([] : List Char)
    | some s => s) = []
  rw [extractAux_none np (sp - 1) pages h]

/-- Witness for C4's amended claim on a concrete failing document. -/
theorem c4_abort_witness : extract_text_from_pdf (some pdfPageFails) 1 2 = [] :=
  c4_abort_on_page_failure pdfPageFails 1 2 ⟨1, by decide, by decide, by decide⟩

/-- C4 — counterexample.  A raised fetch on page 2 yields the empty
aggregate, while a page 2 that merely contributes no tokens yields the
nonempty page-1 aggregate: a failing page is not treated as an
empty-text contribution, contradicting the claim. -/
theorem c4_counterexample :
    extract_text_from_pdf (some pdfPageFails) 1 2 = [] ∧
    extract_text_from_pdf (some pdfPageEmpty) 1 2 = "\n---PAGE_1---\nworld\n\n".data ∧
    ("\n---PAGE_1---\nworld\n\n".data : List Char) ≠ ([] : List Char) := by
  refine ⟨c4_abort_on_page_failure pdfPageFails 1 2 ⟨1, by decide, by decide, by decide⟩,
    ?_, by decide⟩
  have hw : extract_text_in_columns worldPage = "world\n\n".data := by
    have hl : leftSorted worldPage = [⟨"world".data, 10, 20⟩] := by
      norm_num [leftSorted, leftToks, contentWords, boundaryOf, xPositions, mkGaps,
        sortBy, insertBy, tokLE, ratLE, worldPage, List.filter, List.foldr, maxGap]
    have hr : rightSorted worldPage = [] := by
      norm_num [rightSorted, rightToks, contentWords, boundaryOf, xPositions, mkGaps,
        sortBy, insertBy, tokLE, ratLE, worldPage, List.filter, List.foldr, maxGap]
    rw [extract_text_in_columns, if_neg (by simp [worldPage]), hl, hr]
    decide
  have he : extract_text_in_columns (⟨[], 100⟩ : Page) = [] := by
    rw [extract_text_in_columns, if_pos rfl]
  show (match extractPagesAux pdfPageEmpty 0 2 with
    | none => ([] : List Char)
    | some s => s) = "\n---PAGE_1---\nworld\n\n".data
  suffices h : extractPagesAux pdfPageEmpty 0 2 = some ("\n---PAGE_1---\nworld\n\n".data) by
    rw [h]
  unfold extractPagesAux
  rw [if_pos (by decide : (0:ℕ) < pdfPageEmpty.length),
    show pdfPageEmpty[(0:ℕ)]? = some (some worldPage) from rfl]
  simp only [hw]
  unfold extractPagesAux
  rw [if_pos (by decide : 0 + 1 < pdfPageEmpty.length),
    show pdfPageEmpty[0 + 1]? = some (some (⟨[], 100⟩ : Page)) from rfl]
  simp only [he]
  unfold extractPagesAux
  decide

/-! Stable-sort ordering lemmas for the column segmenter (C7). -/

lemma mem_insertBy {α : Type} {le : α → α → Bool} {a x : α} :
    ∀ {l : List α}, x ∈ insertBy le a l → x = a ∨ x ∈ l := by
  intro l
  induction l with
  | nil => intro h; simpa [insertBy] using h
  | cons b bs ih =>
    intro h
    unfold insertBy at h
    by_cases hba : le b a
    · rw [if_pos hba] at h
      rcases List.mem_cons.mp h with rfl | h'
      · exact Or.inr (List.mem_cons_self _ _)
      · rcases ih h' with h'' | h''
        · exact Or.inl h''
        · exact Or.inr (List.mem_cons_of_mem _ h'')
    · rw [if_neg hba] at h
      rcases List.mem_cons.mp h with rfl | h'
      · exact Or.inl rfl
      · exact Or.inr h'

lemma pairwise_insertBy (a : Tok) :
    ∀ {l : List Tok}, l.Pairwise (fun x y => x.top ≤ y.top) →
      (insertBy tokLE a l).Pairwise (fun x y => x.top ≤ y.top) := by
  intro l
  induction l with
  | nil => intro _; simp [insertBy]
  | cons b bs ih =>
    intro h
    rw [List.pairwise_cons] at h
    unfold insertBy
    by_cases hba : tokLE b a
    · rw [if_pos hba, List.pairwise_cons]
      refine ⟨?_, ih h.2⟩
      intro y hy
      rcases mem_insertBy hy with rfl | hy'
      · exact of_decide_eq_true hba
      · exact h.1 y hy'
    · rw [if_neg hba, List.pairwise_cons]
      have hab : a.top ≤ b.top :=
        le_of_not_le (fun hba' => hba (decide_eq_true hba'))
      refine ⟨?_, List.pairwise_cons.mpr h⟩
      intro y hy
      rcases List.mem_cons.mp hy with rfl | hy'
      · exact hab
      · exact le_trans hab (h.1 y hy')

lemma pairwise_sortBy (l : List Tok) :
    (sortBy tokLE l).Pairwise (fun x y => x.top ≤ y.top) := by
  induction l with
  | nil => simp [sortBy]
  | cons a l ih => exact pairwise_insertBy a ih

lemma sorted_get_mono {l : List Tok}
    (h : l.Pairwise (fun x y => x.top ≤ y.top)) (i j : Fin l.length)
    (hlt : (l.get i).top < (l.get j).top) : (i : ℕ) < (j : ℕ) := by
  rcases Nat.lt_trichotomy (i : ℕ) (j : ℕ) with h' | h' | h'
  · exact h'
  · exact absurd hlt (by rw [Fin.ext h']; exact lt_irrefl _)
  · have := List.pairwise_iff_get.mp h j i (by exact h')
    exact absurd hlt (not_lt_of_le this)

/-- C7: in each column the tokens are emitted in nondecreasing vertical
order — a token with strictly smaller `top` precedes any with larger
`top` — and the combined output is the left segment, a paragraph
separator, then the right segment, so every left-column token's text
precedes every right-column token's text. -/
theorem c7_column_order :
    (∀ (p : Page) (i j : Fin (leftSorted p).length),
      ((leftSorted p).get i).top < ((leftSorted p).get j).top → (i : ℕ) < (j : ℕ)) ∧
    (∀ (p : Page) (i j : Fin (rightSorted p).length),
      ((rightSorted p).get i).top < ((rightSorted p).get j).top → (i : ℕ) < (j : ℕ)) ∧
    (∀ p : Page, p.words ≠ [] →
      extract_text_in_columns p =
        joinSp ((leftSorted p).map Tok.text) ++ '\n' :: '\n' ::
          joinSp ((rightSorted p).map Tok.text)) := by
  refine ⟨fun p i j hlt => sorted_get_mono (pairwise_sortBy _) i j hlt,
    fun p i j hlt => sorted_get_mono (pairwise_sortBy _) i j hlt,
    fun p hp => ?_⟩
  rw [extract_text_in_columns, if_neg hp]

/-- Witness for C7 on a concrete two-column page. -/
theorem c7_column_order_witness :
    extract_text_in_columns wpPage =
      joinSp ((leftSorted wpPage).map Tok.text) ++ '\n' :: '\n' ::
        joinSp ((rightSorted wpPage).map Tok.text) :=
  c7_column_order.2.2 wpPage (by simp [wpPage])

lemma length_insertBy {α : Type} (le : α → α → Bool) (a : α) :
    ∀ l : List α, (insertBy le a l).length = l.length + 1 := by
  intro l
  induction l with
  | nil => rfl
  | cons b bs ih =>
    unfold insertBy
    by_cases hba : le b a
    · rw [if_pos hba, List.length_cons, ih, List.length_cons]
    · rw [if_neg hba, List.length_cons, List.length_cons]

lemma length_sortBy {α : Type} (le : α → α → Bool) :
    ∀ l : List α, (sortBy le l).length = l.length := by
  intro l
  induction l with
  | nil => rfl
  | cons a l ih =>
    show (insertBy le a (sortBy le l)).length = l.length + 1
    rw [length_insertBy, ih]

/-- C8 — counterexample.  With two retained tokens sharing the single
horizontal position 50 (fewer than two distinct positions), the gap list
is the nonempty `[(0, 50, 50)]`, so the boundary is 50 — not the page
midpoint 306 the claim requires. -/
theorem c8_counterexample :
    (contentWords dupPage).map Tok.x0 = [50, 50] ∧
    boundaryOf dupPage = 50 ∧ dupPage.width / 2 = 306 ∧
    boundaryOf dupPage ≠ dupPage.width / 2 := by
  have hc : (contentWords dupPage).map Tok.x0 = [50, 50] := by
    norm_num [contentWords, sortBy, insertBy, tokLE, dupPage, List.filter, List.foldr,
      List.cons_ne_nil]
  have h1 : boundaryOf dupPage = 50 := by
    norm_num [boundaryOf, xPositions, contentWords, sortBy, insertBy, tokLE, ratLE,
      mkGaps, maxGap, gapLT, dupPage, List.filter, List.foldr]
  have h2 : dupPage.width / 2 = 306 := by norm_num [dupPage]
  exact ⟨hc, h1, h2, by rw [h1, h2]; norm_num⟩

/-- C8 (amended): the midpoint fallback happens exactly when fewer than
two tokens are retained (no consecutive pair of positions), not when
fewer than two distinct positions exist; otherwise the boundary is the
midpoint of the largest gap.  The two-cluster example behaves as
claimed: the boundary lies strictly between 14 and 200 and the whole
first cluster lands in the left segment. -/
theorem c8_boundary_amended :
    (∀ p : Page, (contentWords p).length ≤ 1 → boundaryOf p = p.width / 2) ∧
    (14 : ℚ) < boundaryOf clPage ∧ boundaryOf clPage < 200 ∧
    (leftSorted clPage).map Tok.x0 = [10, 12, 14] := by
  have hb : boundaryOf clPage = 107 := by
    norm_num [boundaryOf, xPositions, contentWords, sortBy, insertBy, tokLE, ratLE,
      mkGaps, maxGap, gapLT, clPage, List.filter, List.foldr]
  refine ⟨fun p hlen => ?_, by rw [hb]; norm_num, by rw [hb]; norm_num, ?_⟩
  · have hx : (xPositions p).length ≤ 1 := by
      rw [xPositions, length_sortBy, List.length_map]; exact hlen
    unfold boundaryOf
    cases hxp : xPositions p with
    | nil => rfl
    | cons a l =>
      cases l with
      | nil => rfl
      | cons b l' =>
        rw [hxp] at hx
        simp at hx
  · norm_num [leftSorted, leftToks, contentWords, boundaryOf, xPositions, mkGaps,
      sortBy, insertBy, tokLE, ratLE, clPage, List.filter, List.foldr, maxGap, gapLT]

/-- Witness for C8's amended claim: a single retained token triggers the
midpoint fallback. -/
theorem c8_boundary_witness : boundaryOf singlePage = singlePage.width / 2 :=
  c8_boundary_amended.1 singlePage
    (by norm_num [contentWords, sortBy, insertBy, tokLE, singlePage,
      List.filter, List.foldr])

/-! Once an entity is finalized by a superseding new-entity match, later
matches never touch its map entry (C6). -/

lemma step_lookup_preserved (t : List Char) (cid : ℕ) (v : Scientist)
    (st : PState) (m : ℕ × List Char × ℕ)
    (h1 : listLookup st.scientists cid = some v)
    (h2 : ∀ c, st.current = some c → c.id ≠ cid)
    (hm : isNewEntity m.2.1 = true → m.1 ≠ cid) :
    listLookup (stepMatch t st m).scientists cid = some v ∧
    (∀ c, (stepMatch t st m).current = some c → c.id ≠ cid) := by
  cases hs : splitWS (stripWS m.2.1) with
  | nil =>
    rw [stepMatch_empty t st m hs]
    cases hcur : st.current with
    | none => exact ⟨h1, h2⟩
    | some cur =>
      refine ⟨h1, ?_⟩
      intro c hcc
      injection hcc with e
      subst e
      exact h2 cur hcur
  | cons w ws =>
    by_cases hc : 2 ≤ (w.filter Char.isUpper).length ∧ 2 < w.length
    · have hnew : isNewEntity m.2.1 = true :=
        (isNewEntity_iff m.2.1).mpr ⟨w, ws, hs, hc.1, hc.2⟩
      have hmne := hm hnew
      rw [stepMatch_words_new t st m w ws hs hc]
      cases hcur : st.current with
      | none =>
        refine ⟨h1, ?_⟩
        intro c hcc
        injection hcc with e
        subst e
        exact hmne
      | some cur =>
        refine ⟨?_, ?_⟩
        · rw [listLookup_upsert_ne _ _ _ _ (Ne.symm (h2 cur hcur))]
          exact h1
        · intro c hcc
          injection hcc with e
          subst e
          exact hmne
    · rw [stepMatch_words_ref t st m w ws hs hc]
      cases hcur : st.current with
      | none => exact ⟨h1, h2⟩
      | some cur =>
        refine ⟨?_, ?_⟩
        · rw [listLookup_upsert_ne _ _ _ _ (Ne.symm (h2 cur hcur))]
          exact h1
        · intro c hcc
          injection hcc with e
          subst e
          exact h2 cur hcur

lemma fold_lookup_preserved (t : List Char) (cid : ℕ) (v : Scientist) :
    ∀ (ms : List (ℕ × List Char × ℕ)) (st : PState),
      listLookup st.scientists cid = some v →
      (∀ c, st.current = some c → c.id ≠ cid) →
      (∀ m ∈ ms, isNewEntity m.2.1 = true → m.1 ≠ cid) →
      listLookup (finishParse t (ms.foldl (stepMatch t) st)) cid = some v := by
  intro ms
  induction ms with
  | nil =>
    intro st h1 h2 _
    rw [List.foldl_nil]
    unfold finishParse
    cases hcur : st.current with
    | none => exact h1
    | some cur =>
      simp only [listLookup_upsert_ne _ _ _ _ (Ne.symm (h2 cur hcur))]
      exact h1
  | cons m ms ih =>
    intro st h1 h2 hms
    rw [List.foldl_cons]
    obtain ⟨h1', h2'⟩ :=
      step_lookup_preserved t cid v st m h1 h2 (hms m (List.mem_cons_self _ _))
    exact ih _ h1' h2' (fun m' hm' => hms m' (List.mem_cons_of_mem _ hm'))

lemma parse_split (t : List Char) (pre suf : List (ℕ × List Char × ℕ))
    (m : ℕ × List Char × ℕ) (hms : matchesOf t = pre ++ m :: suf) :
    parse t = finishParse t ((m :: suf).foldl (stepMatch t) (processMatches t pre)) := by
  unfold parse processMatches
  rw [hms, List.foldl_append]

/-- C6: when a new-entity match supersedes the current entity, the
entity's final map record is finalized from the buffer accumulated
strictly before that match — its biography is the normalized prefix
buffer, so no text lexically following the next entity's tag can enter
it (provided, per last-writer-wins, no later new-entity match reuses the
same id). -/
theorem c6_entry_boundary (t : List Char) (k : ℕ) (c : Scientist)
    (m : ℕ × List Char × ℕ)
    (hm : (matchesOf t)[k]? = some m)
    (hcur : (processMatches t ((matchesOf t).take k)).current = some c)
    (hnew : isNewEntity m.2.1 = true)
    (hid : m.1 ≠ c.id)
    (hlater : ∀ m' ∈ (matchesOf t).drop (k + 1),
      isNewEntity m'.2.1 = true → m'.1 ≠ c.id) :
    listLookup (parse t) c.id =
      some { c with
        biography := normalizeBio (processMatches t ((matchesOf t).take k)).buffer,
        page_number := pageOf (t.take m.2.2) } := by
  obtain ⟨hk, hget⟩ := List.getElem?_eq_some.mp hm
  have hms : matchesOf t = (matchesOf t).take k ++ m :: (matchesOf t).drop (k + 1) := by
    conv_lhs => rw [← List.take_append_drop k (matchesOf t)]
    congr 1
    rw [List.drop_eq_getElem_cons hk, hget]
  rw [parse_split t _ _ m hms, List.foldl_cons]
  obtain ⟨w, ws, hs, hc1, hc2⟩ := (isNewEntity_iff m.2.1).mp hnew
  rw [stepMatch_words_new t _ m w ws hs ⟨hc1, hc2⟩]
  refine fold_lookup_preserved t c.id _ _ _ ?_ ?_ hlater
  · show listLookup
      (match (processMatches t ((matchesOf t).take k)).current with
        | some cur =>
          upsert (processMatches t ((matchesOf t).take k)).scientists cur.id
            { cur with
              biography := normalizeBio (processMatches t ((matchesOf t).take k)).buffer,
              page_number := pageOf (t.take m.2.2) }
        | none => (processMatches t ((matchesOf t).take k)).scientists) c.id = _
    rw [hcur]
    exact listLookup_upsert_self _ _ _
  · intro c' hcc
    injection hcc with e
    subst e
    exact hid

/-- Witness for C6 on Example 2 of the spec: THALES's record is exactly
the prefix-derived one, containing nothing of SOLON's span. -/
theorem c6_entry_boundary_witness :
    listLookup (parse inputTwoEntities) 3 =
      some (⟨3, "THALES".data, "bio text".data, 0, []⟩ : Scientist) := by
  have h := c6_entry_boundary inputTwoEntities 1 thalesCurrent
    (4, " SOLON bio text".data, 20) (by decide) (by decide) (by decide)
    (by decide) (by decide)
  exact h.trans (by decide)

/-! Map well-formedness through the pipeline (C9): keys are duplicate
free, each key equals its record's id, and connection lists are
duplicate free. -/

lemma step_wf (t : List Char) (st : PState) (m : ℕ × List Char × ℕ)
    (h1 : (st.scientists.map Prod.fst).Nodup)
    (h2 : ∀ p ∈ st.scientists,
      (p : ℕ × Scientist).1 = p.2.id ∧ p.2.connections.Nodup)
    (h3 : ∀ c, st.current = some c → c.connections.Nodup) :
    ((stepMatch t st m).scientists.map Prod.fst).Nodup ∧
    (∀ p ∈ (stepMatch t st m).scientists,
      (p : ℕ × Scientist).1 = p.2.id ∧ p.2.connections.Nodup) ∧
    (∀ c, (stepMatch t st m).current = some c → c.connections.Nodup) := by
  cases hs : splitWS (stripWS m.2.1) with
  | nil =>
    rw [stepMatch_empty t st m hs]
    cases hcur : st.current with
    | none => exact ⟨h1, h2, h3⟩
    | some cur =>
      refine ⟨h1, h2, ?_⟩
      intro c hcc
      injection hcc with e
      subst e
      exact connAdd_nodup (h3 cur hcur)
  | cons w ws =>
    by_cases hc : 2 ≤ (w.filter Char.isUpper).length ∧ 2 < w.length
    · rw [stepMatch_words_new t st m w ws hs hc]
      cases hcur : st.current with
      | none =>
        refine ⟨h1, h2, ?_⟩
        intro c hcc
        injection hcc with e
        subst e
        exact List.nodup_nil
      | some cur =>
        refine ⟨nodup_fst_upsert h1, ?_, ?_⟩
        · intro p hp
          rcases mem_upsert hp with rfl | hp'
          · exact ⟨rfl, h3 cur hcur⟩
          · exact h2 p hp'
        · intro c hcc
          injection hcc with e
          subst e
          exact List.nodup_nil
    · rw [stepMatch_words_ref t st m w ws hs hc]
      cases hcur : st.current with
      | none => exact ⟨h1, h2, h3⟩
      | some cur =>
        refine ⟨nodup_fst_upsert h1, ?_, ?_⟩
        · intro p hp
          rcases mem_upsert hp with rfl | hp'
          · exact ⟨rfl, h3 cur hcur⟩
          · exact h2 p hp'
        · intro c hcc
          injection hcc with e
          subst e
          exact connAdd_nodup (h3 cur hcur)

lemma fold_wf (t : List Char) :
    ∀ (ms : List (ℕ × List Char × ℕ)) (st : PState),
      (st.scientists.map Prod.fst).Nodup →
      (∀ p ∈ st.scientists,
        (p : ℕ × Scientist).1 = p.2.id ∧ p.2.connections.Nodup) →
      (∀ c, st.current = some c → c.connections.Nodup) →
      ((ms.foldl (stepMatch t) st).scientists.map Prod.fst).Nodup ∧
      (∀ p ∈ (ms.foldl (stepMatch t) st).scientists,
        (p : ℕ × Scientist).1 = p.2.id ∧ p.2.connections.Nodup) ∧
      (∀ c, (ms.foldl (stepMatch t) st).current = some c →
        c.connections.Nodup) := by
  intro ms
  induction ms with
  | nil => intro st h1 h2 h3; exact ⟨h1, h2, h3⟩
  | cons m ms ih =>
    intro st h1 h2 h3
    rw [List.foldl_cons]
    obtain ⟨g1, g2, g3⟩ := step_wf t st m h1 h2 h3
    exact ih _ g1 g2 g3

lemma parse_wf (t : List Char) :
    ((parse t).map Prod.fst).Nodup ∧
    ∀ p ∈ parse t, (p : ℕ × Scientist).1 = p.2.id ∧ p.2.connections.Nodup := by
  obtain ⟨g1, g2, g3⟩ := fold_wf t (matchesOf t) ⟨[], none, []⟩
    List.nodup_nil (fun p hp => absurd hp (List.not_mem_nil p))
    (fun c hc => Option.noConfusion hc)
  unfold parse finishParse
  cases hcur : (processMatches t (matchesOf t)).current with
  | none => exact ⟨g1, g2⟩
  | some cur =>
    refine ⟨nodup_fst_upsert g1, ?_⟩
    intro p hp
    rcases mem_upsert hp with rfl | hp'
    · exact ⟨rfl, g3 cur hcur⟩
    · exact g2 p hp'

lemma pipeline_wf (t : List Char) :
    ((runPipeline t).map Prod.fst).Nodup ∧
    ∀ p ∈ runPipeline t,
      (p : ℕ × Scientist).1 = p.2.id ∧ p.2.connections.Nodup := by
  obtain ⟨g1, g2⟩ := parse_wf t
  constructor
  · show ((extract_connections (parse t)).map Prod.fst).Nodup
    unfold extract_connections
    rw [List.map_map]
    exact g1
  · intro p hp
    rcases List.mem_map.mp hp with ⟨q, hq, rfl⟩
    obtain ⟨e, hnd⟩ := g2 q hq
    exact ⟨by rw [e]; rfl, resolveFold_nodup _ _ _ hnd⟩

/-! Edge multiplicity for the graph builder (C9). -/

lemma count_map_pair (k tgt : ℕ) (conns : List ℕ) :
    List.count (k, tgt) (conns.map (fun c => (k, c))) = List.count tgt conns := by
  induction conns with
  | nil => rfl
  | cons c cs ih =>
    rw [List.map_cons, List.count_cons, List.count_cons, ih]
    congr 1
    by_cases h : c = tgt
    · subst h; simp
    · simp [h, Prod.ext_iff]

lemma count_edges_zero (m : List (ℕ × Scientist)) (k tgt : ℕ)
    (h : k ∉ m.map Prod.fst) :
    List.count (k, tgt) (create_relationships m) = 0 := by
  rw [List.count_eq_zero]
  intro hmem
  rcases List.mem_flatMap.mp hmem with ⟨p, hp, hin⟩
  rcases List.mem_map.mp hin with ⟨c, hcm, heq⟩
  have hfst : p.1 = k := congrArg Prod.fst heq
  exact h (hfst ▸ List.mem_map_of_mem Prod.fst hp)

lemma create_relationships_cons (q : ℕ × Scientist) (rest : List (ℕ × Scientist)) :
    create_relationships (q :: rest) =
      q.2.connections.map (fun c => (q.1, c)) ++ create_relationships rest := by
  unfold create_relationships
  rw [List.flatMap_cons]

lemma count_edges_one :
    ∀ (m : List (ℕ × Scientist)) (k tgt : ℕ) (s : Scientist),
      (m.map Prod.fst).Nodup →
      (∀ p ∈ m, (p : ℕ × Scientist).2.connections.Nodup) →
      (k, s) ∈ m → tgt ∈ s.connections →
      List.count (k, tgt) (create_relationships m) = 1 := by
  intro m
  induction m with
  | nil => intro k tgt s _ _ hks _; cases hks
  | cons q rest ih =>
    intro k tgt s h1 h2 hks htgt
    obtain ⟨k0, s0⟩ := q
    rw [create_relationships_cons, List.count_append]
    rw [List.map_cons, List.nodup_cons] at h1
    rcases List.mem_cons.mp hks with heq | hmem
    · injection heq with e1 e2
      subst e1
      subst e2
      rw [count_map_pair,
        List.count_eq_one_of_mem (h2 _ (List.mem_cons_self _ _)) htgt,
        count_edges_zero rest _ tgt h1.1]
    · have hk : k ∈ rest.map Prod.fst := List.mem_map.mpr ⟨(k, s), hmem, rfl⟩
      have hne : k0 ≠ k := fun e => h1.1 (e ▸ hk)
      have hz : List.count (k, tgt) (s0.connections.map (fun c => (k0, c))) = 0 := by
        rw [List.count_eq_zero]
        intro hmm
        rcases List.mem_map.mp hmm with ⟨c, -, heq⟩
        exact hne (congrArg Prod.fst heq)
      rw [hz, ih k tgt s h1.2
        (fun p hp => h2 p (List.mem_cons_of_mem _ hp)) hmem htgt]

/-- C9: the graph builder emits exactly one edge per
(entity, resolved-connection-id) pair; an edge whose target id is not a
key of the entity map is still present exactly once, and no node with
that id exists — nodes come only from the entity map. -/
theorem c9_edges (t : List Char) (k tgt : ℕ) (s : Scientist)
    (hks : (k, s) ∈ runPipeline t) (htgt : tgt ∈ s.connections) :
    List.count (k, tgt) (create_relationships (runPipeline t)) = 1 ∧
    (tgt ∉ (runPipeline t).map Prod.fst →
      tgt ∉ (nodesOf (runPipeline t)).map Scientist.id) := by
  obtain ⟨h1, h2⟩ := pipeline_wf t
  refine ⟨count_edges_one (runPipeline t) k tgt s h1
    (fun p hp => (h2 p hp).2) hks htgt, ?_⟩
  intro hkeys hmem
  rcases List.mem_map.mp hmem with ⟨sc, hsc, rfl⟩
  rcases List.mem_map.mp hsc with ⟨p, hp, rfl⟩
  exact hkeys ((h2 p hp).1 ▸ List.mem_map_of_mem Prod.fst hp)

/-- Witness for C9: the forward reference `[99]` yields exactly one edge
`(1, 99)` although no entity 99 exists. -/
theorem c9_edges_witness :
    List.count (1, 99) (create_relationships (runPipeline inputUnknownRef)) = 1 :=
  (c9_edges inputUnknownRef 1 99 unknownRefScientist (by decide) (by decide)).1

/-- Witness for C2's amended claim at a concrete entity: a biography id
distinct from the key enters the resolved set. -/
theorem c2_resolver_amended_witness :
    7 ∈ (resolveSci 5 (⟨5, "X".data, "a [7] b".data, 0, []⟩ : Scientist)).connections :=
  (c2_resolver_amended.1 5 ⟨5, "X".data, "a [7] b".data, 0, []⟩ 7).mpr
    (Or.inr ⟨by decide, by decide⟩)
